import Mathlib

/-!
Shallow embedding of the PyAbel Hansen-Law inverse Abel transform
(`abel/hansenlaw.py`) and of the centering helper
(`abel/tools/center.py`), together with theorems settling the claims
about the natural-language specification of this code.

Modelling conventions:
* numpy arrays become `List ℝ` (rows) and `List (List ℝ)` (images);
* Python floating point arithmetic is modelled by real arithmetic,
  with `math.pow` on a positive base as `Real.rpow`, `np.log` as
  `Real.log` and `math.pi` as `Real.pi`;
* a Python exception is modelled by `Option.none`: `np.gradient`
  raises `ValueError` on arrays of fewer than two samples, so the
  gradient returns `none` there and the failure propagates;
* `pool.map` is an order-preserving map, so it becomes `List.mapM`
  over `Option` (a raised exception in any row aborts the call);
* the rational-valued centering code is embedded over `ℚ`.
-/

namespace PyAbel

/-! ### Generic array operations (numpy counterparts) -/

/-- Embedding of `np.fliplr`: mirror every row. -/
def fliplr {α : Type} (m : List (List α)) : List (List α) := m.map List.reverse

/-- Embedding of `np.flipud`: reverse the order of the rows. -/
def flipud {α : Type} (m : List (List α)) : List (List α) := m.reverse

/-- Embedding of `np.concatenate(-, axis=1)`: join two blocks row by row. -/
def hconcat {α : Type} (a b : List (List α)) : List (List α) :=
  List.zipWith (fun r s => r ++ s) a b

/-- Number of columns of an image, as `np.shape` reads it off. -/
def colsOf {α : Type} (m : List (List α)) : ℕ := (m.headD []).length

/-- Embedding of `np.array_split(m, 2, axis=1)`: split the columns at
index `ceil(M/2)`, written `M - M / 2`. -/
def splitLR {α : Type} (m : List (List α)) : List (List α) × List (List α) :=
  let c := colsOf m - colsOf m / 2
  (m.map (List.take c), m.map (List.drop c))

/-- Embedding of `np.array_split(m, 2, axis=0)`: split the rows at
index `ceil(N/2)`, written `N - N / 2`. -/
def splitTB {α : Type} (m : List (List α)) : List (List α) × List (List α) :=
  let c := m.length - m.length / 2
  (m.take c, m.drop c)

/-- Embedding of `np.gradient` on a 1-D array of at least two samples:
one-sided differences at the ends, central differences inside. -/
noncomputable def npGradientRaw (l : List ℝ) : List ℝ :=
  (List.range l.length).map fun i =>
    if i = 0 then l.getD 1 0 - l.getD 0 0
    else if i = l.length - 1 then l.getD i 0 - l.getD (i - 1) 0
    else (l.getD (i + 1) 0 - l.getD (i - 1) 0) / 2

/-- Embedding of `np.gradient`, including the `ValueError` it raises on
arrays of fewer than two samples (modelled as `none`). -/
noncomputable def npGradient (l : List ℝ) : Option (List ℝ) :=
  if l.length < 2 then none else some (npGradientRaw l)

/-! ### The Hansen-Law row transform (`iabel_hansenlaw_transform`) -/

/-- The coefficient table `h` of `iabel_hansenlaw_transform` (exact
decimal values, as rationals). -/
def hTable : List ℚ := [0.318, 0.19, 0.35, 0.82, 1.8, 3.9, 8.3, 19.6, 48.3]

/-- The coefficient table `lam` of `iabel_hansenlaw_transform` (exact
decimal values, as rationals). -/
def lamTable : List ℚ :=
  [0.0, -2.1, -6.2, -22.4, -92.5, -414.5, -1889.4, -8990.9, -47391.1]

/-- Entry `h[k]` of the table, as a real number. -/
noncomputable def hCoef (k : Fin 9) : ℝ := ((hTable.getD k 0 : ℚ) : ℝ)

/-- Entry `lam[k]` of the table, as a real number. -/
noncomputable def lamCoef (k : Fin 9) : ℝ := ((lamTable.getD k 0 : ℚ) : ℝ)

/-- Embedding of the `Gamma` lambda of `iabel_hansenlaw_transform`,
Eq. (18): `(1 - Nm**lam) / (pi * lam)` when `lam < -1`, otherwise
`-log(Nm) / pi`. -/
noncomputable def Gamma (Nm lam : ℝ) : ℝ :=
  if lam < -1 then (1 - Nm ^ lam) / (Real.pi * lam) else -Real.log Nm / Real.pi

/-- The ratio `Nm = (N - n) / (N - n - 1.0)` of the main loop. -/
noncomputable def NmR (N n : ℕ) : ℝ := ((N : ℝ) - n) / ((N : ℝ) - n - 1)

/-- One pass of the inner `for k in range(K)` loop of
`iabel_hansenlaw_transform`: each accumulator is updated to
`pow(Nm, lam[k]) * X[k] + h[k] * Gamma(Nm, lam[k]) * gp[n]` (Eq. 17). -/
noncomputable def hlStep (Nm gn : ℝ) (X : Fin 9 → ℝ) : Fin 9 → ℝ :=
  fun k => Nm ^ lamCoef k * X k + hCoef k * Gamma Nm (lamCoef k) * gn

/-- The main `for n in range(N-1)` loop of `iabel_hansenlaw_transform`,
threading the accumulator array `X` (initially zero) and appending
`X.sum()` to the output after each step. -/
noncomputable def hlLoop (N : ℕ) (gp : List ℝ) : (Fin 9 → ℝ) × List ℝ :=
  (List.range (N - 1)).foldl
    (fun s n =>
      let X := hlStep (NmR N n) (gp.getD n 0) s.1
      (X, s.2 ++ [∑ k, X k]))
    (fun _ => 0, [])

/-- Embedding of `iabel_hansenlaw_transform`: gradient, Hansen-Law
recursion, duplication of the last output sample, final negation.
`none` models the `ValueError` raised by `np.gradient` on rows of
fewer than two samples. -/
noncomputable def iabel_hansenlaw_transform (row : List ℝ) : Option (List ℝ) :=
  match npGradient row with
  | none => none
  | some gp =>
    let N := row.length
    let out := (hlLoop N gp).2
    some ((out ++ [out.getD (N - 2) 0]).map fun x => -x)

/-! ### The row transform as the specification words it -/

/-- Accumulator state of the Hansen-Law recursion as the specification
words it: `X` starts at zero and after processing column `n` each entry
is `Nm^lam[k] * X[k] + h[k] * Gamma(Nm, lam[k]) * g[n]`. -/
noncomputable def hlSpecX (N : ℕ) (g : ℕ → ℝ) : ℕ → Fin 9 → ℝ
  | 0 => fun _ => 0
  | n + 1 => fun k =>
      NmR N n ^ lamCoef k * hlSpecX N g n k
        + hCoef k * Gamma (NmR N n) (lamCoef k) * g n

/-- Output sample `n` of the recursion as the specification words it:
the sum of the nine accumulators after processing column `n`. -/
noncomputable def hlSpecOut (N : ℕ) (g : ℕ → ℝ) (n : ℕ) : ℝ :=
  ∑ k, hlSpecX N g (n + 1) k

/-- The whole output row as the specification words it: sample `n` is
the accumulator sum after column `n` for `n ≤ N - 2`, sample `N - 1`
repeats sample `N - 2`, and the entire row is negated. -/
noncomputable def hlSpecRow (row : List ℝ) : List ℝ :=
  let N := row.length
  let g := fun n => (npGradientRaw row).getD n 0
  (List.range N).map fun n =>
    -(hlSpecOut N g (if n = N - 1 then N - 2 else n))

/-! ### Quadrant decomposition, co-adding and reassembly (`iabel_hansenlaw`) -/

/-- Embedding of `np.any(quad)` for the 4-tuple quadrant selector. -/
def anyQuad (quad : Bool × Bool × Bool × Bool) : Bool :=
  quad.1 || quad.2.1 || quad.2.2.1 || quad.2.2.2

/-- Embedding of `Q * b` for a numpy array `Q` and a Python bool `b`:
elementwise multiplication by 1 or 0. -/
noncomputable def scaleQuad (m : List (List ℝ)) (b : Bool) : List (List ℝ) :=
  m.map fun r => r.map fun x => x * (if b then 1 else 0)

/-- Elementwise addition of two equal-shaped images (`Q + Q`). -/
noncomputable def addQuad (a b : List (List ℝ)) : List (List ℝ) :=
  List.zipWith (List.zipWith (fun x y => x + y)) a b

/-- The combined quadrant of the co-add path:
`Q = Q0*quad[0] + Q1*quad[1] + Q2*quad[2] + Q3*quad[3]`. -/
noncomputable def coaddQuad (Q0 Q1 Q2 Q3 : List (List ℝ))
    (quad : Bool × Bool × Bool × Bool) : List (List ℝ) :=
  addQuad (addQuad (addQuad (scaleQuad Q0 quad.1) (scaleQuad Q1 quad.2.1))
    (scaleQuad Q2 quad.2.2.1)) (scaleQuad Q3 quad.2.2.2)

/-- Embedding of the quadrant split and reorientation of
`iabel_hansenlaw` (lines 76-81): split left/right then top/bottom and
flip `Q0`, `Q2`, `Q3` into the canonical orientation.  Returns
`(Q0, Q1, Q2, Q3)`. -/
def decomposeQuadrants {α : Type} (data : List (List α)) :
    List (List α) × List (List α) × List (List α) × List (List α) :=
  let lr := splitLR data
  let q03 := splitTB lr.2
  let q12 := splitTB lr.1
  (fliplr q03.1, q12.1, flipud q12.2, fliplr (flipud q03.2))

/-- Embedding of the image reassembly of `iabel_hansenlaw` (lines
107-109): `Top = (AQ1 | fliplr AQ0)`,
`Bottom = flipud (AQ2 | fliplr AQ3)`, stacked vertically. -/
def reassembleQuadrants {α : Type}
    (aq : List (List α) × List (List α) × List (List α) × List (List α)) :
    List (List α) :=
  let top := hconcat aq.2.1 (fliplr aq.1)
  let bottom := flipud (hconcat aq.2.2.1 (fliplr aq.2.2.2))
  top ++ bottom

/-- Embedding of
`pool.map(iabel_hansenlaw_transform, [Q[row] for row in range(N2)])`:
an order-preserving map of the row transform over the first `n2` rows;
a raised exception in any row aborts the whole call. -/
noncomputable def poolMapRows (q : List (List ℝ)) (n2 : ℕ) :
    Option (List (List ℝ)) :=
  ((List.range n2).map fun r => q.getD r []).mapM iabel_hansenlaw_transform

/-- Embedding of the branch of `iabel_hansenlaw` that produces the four
transformed quadrants (lines 84-104): the co-add path when any selector
entry is true (one combined quadrant, transformed once, replicated four
ways), the independent path otherwise. -/
noncomputable def hlQuads (Q0 Q1 Q2 Q3 : List (List ℝ)) (n2 : ℕ)
    (quad : Bool × Bool × Bool × Bool) :
    Option (List (List ℝ) × List (List ℝ) × List (List ℝ) × List (List ℝ)) :=
  if anyQuad quad then
    match poolMapRows (coaddQuad Q0 Q1 Q2 Q3 quad) n2 with
    | none => none
    | some A => some (A, A, A, A)
  else
    match poolMapRows Q0 n2 with
    | none => none
    | some a0 =>
      match poolMapRows Q1 n2 with
      | none => none
      | some a1 =>
        match poolMapRows Q2 n2 with
        | none => none
        | some a2 =>
          match poolMapRows Q3 n2 with
          | none => none
          | some a3 => some (a0, a1, a2, a3)

/-- Embedding of the reconstruction performed by `iabel_hansenlaw`:
decompose, transform the quadrants, reassemble.  `none` models an
exception escaping the call. -/
noncomputable def iabel_hansenlaw_recon (data : List (List ℝ))
    (quad : Bool × Bool × Bool × Bool) : Option (List (List ℝ)) :=
  let n2 := data.length / 2
  let q := decomposeQuadrants data
  match hlQuads q.1 q.2.1 q.2.2.1 q.2.2.2 n2 quad with
  | none => none
  | some aq => some (reassembleQuadrants aq)

/-- Modelled from the spec: `calculate_speeds` lives in `abel.tools`,
which is not under `src/`; the spec describes it as "a radial-intensity
profile ... representing total signal as a function of radius" computed
from the reconstructed image.  We bin pixels by integer distance from
the image midpoint and total the signal in each bin. -/
noncomputable def calculate_speeds (img : List (List ℝ)) (n : ℕ) : List ℝ :=
  (List.range n).map fun r =>
    (img.enum.map fun p =>
      ((p.2.enum.filter fun q =>
          Nat.sqrt ((((p.1 : ℤ) - (n / 2 : ℕ)).natAbs) ^ 2
            + (((q.1 : ℤ) - (n / 2 : ℕ)).natAbs) ^ 2) == r).map
        fun q => q.2).sum).sum

/-- Embedding of the full `iabel_hansenlaw` entry point.  The Python
function returns `(recon, speeds)` when `calc_speeds` is true and
`recon` alone otherwise; we return the optional speeds next to the
reconstruction.  `verbose` only drives printing and `freecpus` only
sizes the worker pool, so neither touches the data path. -/
noncomputable def iabel_hansenlaw (data : List (List ℝ))
    (quad : Bool × Bool × Bool × Bool) (calc_speeds verbose : Bool)
    (freecpus : ℕ) : Option (List (List ℝ) × Option (List ℝ)) :=
  match iabel_hansenlaw_recon data quad with
  | none => none
  | some recon =>
    some (recon,
      if calc_speeds then some (calculate_speeds recon data.length) else none)

/-! ### The centering helper (`abel/tools/center.py`), over `ℚ` -/

/-- Total intensity of an image. -/
def totalMass (m : List (List ℚ)) : ℚ := (m.map List.sum).sum

/-- Embedding of `scipy.ndimage.center_of_mass` (an external library
call with documented semantics): the intensity-weighted mean index
along each axis, in `(row, column)` order. -/
def center_of_mass (m : List (List ℚ)) : ℚ × ℚ :=
  ((((List.range m.length).zip m).map fun p => (p.1 : ℚ) * p.2.sum).sum
      / totalMass m,
    (m.map fun r =>
      (((List.range r.length).zip r).map fun p => (p.1 : ℚ) * p.2).sum).sum
      / totalMass m)

/-- Python 3 `round` on a rational: round to the nearest integer,
ties to the even integer. -/
def pyRound (q : ℚ) : ℤ :=
  if q - ⌊q⌋ < 1 / 2 then ⌊q⌋
  else if 1 / 2 < q - ⌊q⌋ then ⌊q⌋ + 1
  else if ⌊q⌋ % 2 = 0 then ⌊q⌋ else ⌊q⌋ + 1

/-- Embedding of `find_center_by_center_of_mass`: swap scipy's
`(row, column)` centroid into `(x, y)` order and round each coordinate
when `round_output` is set.  `verbose` only drives printing. -/
def find_center_by_center_of_mass (data : List (List ℚ))
    (verbose round_output : Bool) : ℚ × ℚ :=
  let com := center_of_mass data
  let center := (com.2, com.1)
  if round_output then ((pyRound center.1 : ℚ), (pyRound center.2 : ℚ))
  else center

/-- The `x` (column) coordinate of the intensity-weighted centroid,
written directly from the spec sentence "center-of-mass:
intensity-weighted centroid" with `(x_center, y_center)` order. -/
def xCentroid (m : List (List ℚ)) : ℚ :=
  (m.map fun r => (r.enum.map fun p => (p.1 : ℚ) * p.2).sum).sum / totalMass m

/-- The `y` (row) coordinate of the intensity-weighted centroid,
written directly from the spec sentence "center-of-mass:
intensity-weighted centroid" with `(x_center, y_center)` order. -/
def yCentroid (m : List (List ℚ)) : ℚ :=
  (m.enum.map fun p => (p.1 : ℚ) * p.2.sum).sum / totalMass m

/-! ### Bridging lemmas: the fold of the source equals the recursion of
the specification -/

theorem hlLoop_spec (N : ℕ) (gp : List ℝ) (m : ℕ) :
    (List.range m).foldl
      (fun s n =>
        let X := hlStep (NmR N n) (gp.getD n 0) s.1
        (X, s.2 ++ [∑ k, X k]))
      (fun _ => 0, []) =
    (hlSpecX N (fun n => gp.getD n 0) m,
     (List.range m).map fun n => hlSpecOut N (fun n => gp.getD n 0) n) := by
  induction m with
  | zero => rfl
  | succ m ih =>
    rw [List.range_succ, List.foldl_append, ih, List.map_append]
    rfl

theorem hlLoop_eq (N : ℕ) (gp : List ℝ) :
    hlLoop N gp =
    (hlSpecX N (fun n => gp.getD n 0) (N - 1),
     (List.range (N - 1)).map fun n => hlSpecOut N (fun n => gp.getD n 0) n) :=
  hlLoop_spec N gp (N - 1)

theorem iabel_transform_eq_spec (row : List ℝ) (h2 : 2 ≤ row.length) :
    iabel_hansenlaw_transform row = some (hlSpecRow row) := by
  have hg : npGradient row = some (npGradientRaw row) := by
    unfold npGradient
    rw [if_neg (by omega)]
  unfold iabel_hansenlaw_transform
  rw [hg]
  show some _ = some _
  congr 1
  set N := row.length with hN
  set g : ℕ → ℝ := fun n => (npGradientRaw row).getD n 0 with hgdef
  have hout : (hlLoop N (npGradientRaw row)).2 =
      (List.range (N - 1)).map fun n => hlSpecOut N g n := by
    rw [hlLoop_eq]
  rw [hout]
  have hlast :
      ((List.range (N - 1)).map fun n => hlSpecOut N g n).getD (N - 2) 0 =
        hlSpecOut N g (N - 2) := by
    have hlt : N - 2 < N - 1 := by omega
    simp [List.getD_eq_getElem?_getD, List.getElem?_range hlt]
  rw [hlast]
  have hrange : List.range N = List.range (N - 1) ++ [N - 1] := by
    conv_lhs => rw [show N = N - 1 + 1 by omega]
    exact List.range_succ (N - 1)
  show _ = hlSpecRow row
  unfold hlSpecRow
  rw [← hN, ← hgdef]
  dsimp only []
  rw [hrange, List.map_append, List.map_append, List.map_map]
  congr 1
  · refine List.map_congr_left fun n hn => ?_
    have : n < N - 1 := List.mem_range.mp hn
    simp only [Function.comp]
    rw [if_neg (by omega)]
  · simp

theorem hlSpecRow_length (row : List ℝ) :
    (hlSpecRow row).length = row.length := by
  unfold hlSpecRow
  simp

theorem iabel_transform_none (row : List ℝ) (h2 : row.length < 2) :
    iabel_hansenlaw_transform row = none := by
  unfold iabel_hansenlaw_transform npGradient
  rw [if_pos h2]

theorem getD_map_add (l : List ℝ) (c : ℝ) (j : ℕ) (hj : j < l.length) :
    (l.map fun x => x + c).getD j 0 = l.getD j 0 + c := by
  simp [List.getD_eq_getElem?_getD, List.getElem?_eq_getElem, hj]

theorem npGradientRaw_map_add (l : List ℝ) (c : ℝ) (h2 : 2 ≤ l.length) :
    npGradientRaw (l.map fun x => x + c) = npGradientRaw l := by
  unfold npGradientRaw
  rw [List.length_map]
  refine List.map_congr_left fun i hi => ?_
  have hiN : i < l.length := List.mem_range.mp hi
  by_cases h0 : i = 0
  · subst h0
    rw [if_pos rfl, if_pos rfl, getD_map_add l c 1 (by omega),
      getD_map_add l c 0 (by omega)]
    ring
  · rw [if_neg h0, if_neg h0]
    by_cases hl : i = l.length - 1
    · rw [if_pos hl, if_pos hl, getD_map_add l c i hiN,
        getD_map_add l c (i - 1) (by omega)]
      ring
    · rw [if_neg hl, if_neg hl, getD_map_add l c (i + 1) (by omega),
        getD_map_add l c (i - 1) (by omega)]
      ring

theorem npGradient_map_add (l : List ℝ) (c : ℝ) :
    npGradient (l.map fun x => x + c) = npGradient l := by
  unfold npGradient
  rw [List.length_map]
  by_cases h : l.length < 2
  · rw [if_pos h, if_pos h]
  · rw [if_neg h, if_neg h, npGradientRaw_map_add l c (by omega)]

theorem transform_congr_gradient (r1 r2 : List ℝ) (hlen : r1.length = r2.length)
    (hg : npGradient r1 = npGradient r2) :
    iabel_hansenlaw_transform r1 = iabel_hansenlaw_transform r2 := by
  unfold iabel_hansenlaw_transform
  rw [hlen, hg]

theorem getD_replicate_self {α : Type} (N : ℕ) (c d : α) (j : ℕ) (hj : j < N) :
    (List.replicate N c).getD j d = c := by
  simp [List.getD_eq_getElem?_getD, List.getElem?_replicate, hj]

theorem npGradientRaw_replicate (N : ℕ) (c : ℝ) (h2 : 2 ≤ N) :
    npGradientRaw (List.replicate N c) = List.replicate N 0 := by
  unfold npGradientRaw
  rw [List.length_replicate]
  have hmap : (List.range N).map (fun i =>
      if i = 0 then
        (List.replicate N c).getD 1 0 - (List.replicate N c).getD 0 0
      else if i = N - 1 then
        (List.replicate N c).getD i 0 - (List.replicate N c).getD (i - 1) 0
      else
        ((List.replicate N c).getD (i + 1) 0
          - (List.replicate N c).getD (i - 1) 0) / 2) =
      (List.range N).map fun _ => (0 : ℝ) := by
    refine List.map_congr_left fun i hi => ?_
    have hiN : i < N := List.mem_range.mp hi
    by_cases h0 : i = 0
    · subst h0
      rw [if_pos rfl, getD_replicate_self N c 0 1 (by omega),
        getD_replicate_self N c 0 0 (by omega)]
      ring
    · rw [if_neg h0]
      by_cases hl : i = N - 1
      · rw [if_pos hl, getD_replicate_self N c 0 i hiN,
          getD_replicate_self N c 0 (i - 1) (by omega)]
        ring
      · rw [if_neg hl, getD_replicate_self N c 0 (i + 1) (by omega),
          getD_replicate_self N c 0 (i - 1) (by omega)]
        ring
  rw [hmap, List.map_const', List.length_range]

theorem hlSpecX_zero_gradient (N : ℕ) (g : ℕ → ℝ) (hg : ∀ n, g n = 0)
    (m : ℕ) : hlSpecX N g m = fun _ => 0 := by
  induction m with
  | zero => rfl
  | succ m ih =>
    funext k
    show NmR N m ^ lamCoef k * hlSpecX N g m k
      + hCoef k * Gamma (NmR N m) (lamCoef k) * g m = 0
    rw [ih, hg]
    ring

theorem hlSpecOut_zero_gradient (N : ℕ) (g : ℕ → ℝ) (hg : ∀ n, g n = 0)
    (n : ℕ) : hlSpecOut N g n = 0 := by
  unfold hlSpecOut
  rw [hlSpecX_zero_gradient N g hg (n + 1)]
  simp

theorem hlSpecRow_replicate (N : ℕ) (c : ℝ) (h2 : 2 ≤ N) :
    hlSpecRow (List.replicate N c) = List.replicate N 0 := by
  unfold hlSpecRow
  rw [List.length_replicate]
  have hg : ∀ n, (npGradientRaw (List.replicate N c)).getD n 0 = 0 := by
    intro n
    rw [npGradientRaw_replicate N c h2]
    by_cases hn : n < N
    · exact getD_replicate_self N 0 0 n hn
    · simp [List.getD_eq_getElem?_getD, List.getElem?_replicate, hn]
  have hmap : (List.range N).map (fun n =>
      -(hlSpecOut N (fun n => (npGradientRaw (List.replicate N c)).getD n 0)
        (if n = N - 1 then N - 2 else n))) =
      (List.range N).map fun _ => (0 : ℝ) := by
    refine List.map_congr_left fun i _ => ?_
    rw [hlSpecOut_zero_gradient N _ hg]
    ring
  rw [hmap, List.map_const', List.length_range]

theorem transform_replicate (N : ℕ) (c : ℝ) (h2 : 2 ≤ N) :
    iabel_hansenlaw_transform (List.replicate N c) =
      some (List.replicate N 0) := by
  rw [iabel_transform_eq_spec _ (by simpa using h2),
    hlSpecRow_replicate N c h2]

/-! ### Geometry of the quadrant decomposition -/

theorem fliplr_fliplr {α : Type} (m : List (List α)) :
    fliplr (fliplr m) = m := by
  simp [fliplr, List.map_map, Function.comp]

theorem flipud_flipud {α : Type} (m : List (List α)) :
    flipud (flipud m) = m := by
  simp [flipud]

theorem hconcat_take_drop {α : Type} (A : List (List α)) (c : ℕ) :
    hconcat (A.map (List.take c)) (A.map (List.drop c)) = A := by
  unfold hconcat
  rw [List.zipWith_map, List.zipWith_same]
  simp

theorem hconcat_flipud {α : Type} (a b : List (List α))
    (h : a.length = b.length) :
    hconcat (flipud a) (flipud b) = flipud (hconcat a b) := by
  unfold hconcat flipud
  rw [List.reverse_zipWith h]

theorem reassemble_decompose {α : Type} (data : List (List α)) :
    reassembleQuadrants (decomposeQuadrants data) = data := by
  unfold reassembleQuadrants decomposeQuadrants splitLR splitTB
  dsimp only []
  rw [fliplr_fliplr, fliplr_fliplr, List.length_map, List.length_map]
  rw [← List.map_take, ← List.map_take, ← List.map_drop, ← List.map_drop]
  rw [hconcat_take_drop, hconcat_flipud _ _ (by simp), hconcat_take_drop,
    flipud_flipud, List.take_append_drop]

/-! ### Shape bookkeeping -/

/-- Predicate `Shape m n c` says the image `m` has `n` rows, each of `c` samples:
the rectangular shape `(n, c)` that `np.shape` reports. -/
def Shape {α : Type} (m : List (List α)) (n c : ℕ) : Prop :=
  m.length = n ∧ ∀ r ∈ m, r.length = c

theorem mapLength_eq_iff_shape {α : Type} (data : List (List α)) (N M : ℕ) :
    data.map List.length = List.replicate N M ↔ Shape data N M := by
  rw [List.eq_replicate_iff]
  simp [Shape]

theorem shape_fliplr {α : Type} {m : List (List α)} {n c : ℕ}
    (h : Shape m n c) : Shape (fliplr m) n c := by
  refine ⟨by simp [fliplr, h.1], fun r hr => ?_⟩
  obtain ⟨s, hs, rfl⟩ := List.mem_map.mp hr
  simp [h.2 s hs]

theorem shape_flipud {α : Type} {m : List (List α)} {n c : ℕ}
    (h : Shape m n c) : Shape (flipud m) n c := by
  refine ⟨by simp [flipud, h.1], fun r hr => ?_⟩
  exact h.2 r (List.mem_reverse.mp hr)

theorem shape_map_take {α : Type} {m : List (List α)} {n c : ℕ} (k : ℕ)
    (h : Shape m n c) (hk : k ≤ c) : Shape (m.map (List.take k)) n k := by
  refine ⟨by simp [h.1], fun r hr => ?_⟩
  obtain ⟨s, hs, rfl⟩ := List.mem_map.mp hr
  simp [h.2 s hs]
  omega

theorem shape_map_drop {α : Type} {m : List (List α)} {n c : ℕ} (k : ℕ)
    (h : Shape m n c) : Shape (m.map (List.drop k)) n (c - k) := by
  refine ⟨by simp [h.1], fun r hr => ?_⟩
  obtain ⟨s, hs, rfl⟩ := List.mem_map.mp hr
  simp [h.2 s hs]

theorem shape_take {α : Type} {m : List (List α)} {n c : ℕ} (k : ℕ)
    (h : Shape m n c) (hk : k ≤ n) : Shape (m.take k) k c := by
  refine ⟨by simp [h.1]; omega, fun r hr => h.2 r (List.mem_of_mem_take hr)⟩

theorem shape_drop {α : Type} {m : List (List α)} {n c : ℕ} (k : ℕ)
    (h : Shape m n c) : Shape (m.drop k) (n - k) c := by
  refine ⟨by simp [h.1], fun r hr => h.2 r (List.mem_of_mem_drop hr)⟩

theorem shape_hconcat {α : Type} {a b : List (List α)} {n c1 c2 : ℕ}
    (ha : Shape a n c1) (hb : Shape b n c2) :
    Shape (hconcat a b) n (c1 + c2) := by
  refine ⟨by simp [hconcat, ha.1, hb.1], fun r hr => ?_⟩
  obtain ⟨i, hi, rfl⟩ := List.mem_iff_getElem.mp hr
  simp only [hconcat]
  rw [List.getElem_zipWith, List.length_append]
  have hil : i < a.length := by
    simpa [hconcat, ha.1, hb.1] using hi
  have hil2 : i < b.length := by
    simpa [hconcat, ha.1, hb.1] using hi
  rw [ha.2 _ (List.getElem_mem hil), hb.2 _ (List.getElem_mem hil2)]

theorem shape_append {α : Type} {a b : List (List α)} {n1 n2 c : ℕ}
    (ha : Shape a n1 c) (hb : Shape b n2 c) :
    Shape (a ++ b) (n1 + n2) c := by
  refine ⟨by simp [ha.1, hb.1], fun r hr => ?_⟩
  rcases List.mem_append.mp hr with h | h
  · exact ha.2 r h
  · exact hb.2 r h

theorem shape_addQuad {a b : List (List ℝ)} {n c : ℕ}
    (ha : Shape a n c) (hb : Shape b n c) : Shape (addQuad a b) n c := by
  refine ⟨by simp [addQuad, ha.1, hb.1], fun r hr => ?_⟩
  obtain ⟨i, hi, rfl⟩ := List.mem_iff_getElem.mp hr
  simp only [addQuad]
  rw [List.getElem_zipWith, List.length_zipWith]
  have hil : i < a.length := by
    simpa [addQuad, ha.1, hb.1] using hi
  have hil2 : i < b.length := by
    simpa [addQuad, ha.1, hb.1] using hi
  rw [ha.2 _ (List.getElem_mem hil), hb.2 _ (List.getElem_mem hil2)]
  simp

theorem shape_scaleQuad {m : List (List ℝ)} {n c : ℕ} (b : Bool)
    (h : Shape m n c) : Shape (scaleQuad m b) n c := by
  refine ⟨by simp [scaleQuad, h.1], fun r hr => ?_⟩
  obtain ⟨s, hs, rfl⟩ := List.mem_map.mp hr
  simp [h.2 s hs]

theorem shape_coaddQuad {Q0 Q1 Q2 Q3 : List (List ℝ)} {n c : ℕ}
    (quad : Bool × Bool × Bool × Bool)
    (h0 : Shape Q0 n c) (h1 : Shape Q1 n c) (h2 : Shape Q2 n c)
    (h3 : Shape Q3 n c) : Shape (coaddQuad Q0 Q1 Q2 Q3 quad) n c :=
  shape_addQuad
    (shape_addQuad (shape_addQuad (shape_scaleQuad _ h0) (shape_scaleQuad _ h1))
      (shape_scaleQuad _ h2))
    (shape_scaleQuad _ h3)

theorem colsOf_eq {α : Type} {data : List (List α)} {N M : ℕ}
    (h : Shape data N M) (hN : 1 ≤ N) : colsOf data = M := by
  rcases data with _ | ⟨r, t⟩
  · exact absurd h.1 (by simp; omega)
  · exact h.2 r (by simp)

theorem shape_decompose {data : List (List ℝ)} {N M : ℕ}
    (h : Shape data N M) (hN : Even N) (hM : Even M) (hN1 : 1 ≤ N) :
    Shape (decomposeQuadrants data).1 (N / 2) (M / 2) ∧
    Shape (decomposeQuadrants data).2.1 (N / 2) (M / 2) ∧
    Shape (decomposeQuadrants data).2.2.1 (N / 2) (M / 2) ∧
    Shape (decomposeQuadrants data).2.2.2 (N / 2) (M / 2) := by
  have hcols : colsOf data = M := colsOf_eq h hN1
  have hNmod : N % 2 = 0 := Nat.even_iff.mp hN
  have hMmod : M % 2 = 0 := Nat.even_iff.mp hM
  unfold decomposeQuadrants splitLR splitTB
  dsimp only []
  rw [hcols, List.length_map, List.length_map, h.1]
  have hc : M - M / 2 = M / 2 := by omega
  have hr : N - N / 2 = N / 2 := by omega
  rw [hc, hr]
  have hL : Shape (data.map (List.take (M / 2))) N (M / 2) :=
    shape_map_take _ h (by omega)
  have hR0 : Shape (data.map (List.drop (M / 2))) N (M - M / 2) :=
    shape_map_drop _ h
  rw [hc] at hR0
  have htakeN : N / 2 ≤ N := by omega
  have hdropN : N - N / 2 = N / 2 := hr
  refine ⟨shape_fliplr (shape_take _ hR0 htakeN), shape_take _ hL htakeN,
    ?_, ?_⟩
  · have := shape_drop (N / 2) hL
    rw [hdropN] at this
    exact shape_flipud this
  · have := shape_drop (N / 2) hR0
    rw [hdropN] at this
    exact shape_fliplr (shape_flipud this)

theorem range_map_getD {α : Type} (l : List α) (d : α) :
    (List.range l.length).map (fun r => l.getD r d) = l := by
  apply List.ext_getElem
  · simp
  · intro i h1 h2
    simp [List.getD_eq_getElem?_getD, List.getElem?_eq_getElem h2]

theorem mapM_transform_eq (q : List (List ℝ)) (m2 : ℕ) (h2 : 2 ≤ m2)
    (hrows : ∀ row ∈ q, row.length = m2) :
    q.mapM iabel_hansenlaw_transform = some (q.map hlSpecRow) := by
  induction q with
  | nil => rfl
  | cons a t ih =>
    rw [List.mapM_cons,
      iabel_transform_eq_spec a
        (by rw [hrows a (List.mem_cons_self a t)]; exact h2),
      ih fun row hr => hrows row (List.mem_cons_of_mem a hr)]
    rfl

theorem poolMapRows_eq {q : List (List ℝ)} {n2 m2 : ℕ} (h : Shape q n2 m2)
    (h2 : 2 ≤ m2) :
    poolMapRows q n2 = some (q.map hlSpecRow) := by
  unfold poolMapRows
  rw [← h.1, range_map_getD q []]
  exact mapM_transform_eq q m2 h2 h.2

theorem shape_map_hlSpecRow {q : List (List ℝ)} {n c : ℕ} (h : Shape q n c) :
    Shape (q.map hlSpecRow) n c := by
  refine ⟨by simp [h.1], fun r hr => ?_⟩
  obtain ⟨s, hs, rfl⟩ := List.mem_map.mp hr
  rw [hlSpecRow_length, h.2 s hs]

theorem hlQuads_shape {Q0 Q1 Q2 Q3 : List (List ℝ)} {n2 m2 : ℕ}
    (quad : Bool × Bool × Bool × Bool)
    (h0 : Shape Q0 n2 m2) (h1 : Shape Q1 n2 m2) (h2 : Shape Q2 n2 m2)
    (h3 : Shape Q3 n2 m2) (hm : 2 ≤ m2) :
    ∃ aq, hlQuads Q0 Q1 Q2 Q3 n2 quad = some aq ∧
      Shape aq.1 n2 m2 ∧ Shape aq.2.1 n2 m2 ∧ Shape aq.2.2.1 n2 m2 ∧
      Shape aq.2.2.2 n2 m2 := by
  unfold hlQuads
  by_cases hany : anyQuad quad
  · rw [if_pos hany, poolMapRows_eq (shape_coaddQuad quad h0 h1 h2 h3) hm]
    exact ⟨_, rfl, shape_map_hlSpecRow (shape_coaddQuad quad h0 h1 h2 h3),
      shape_map_hlSpecRow (shape_coaddQuad quad h0 h1 h2 h3),
      shape_map_hlSpecRow (shape_coaddQuad quad h0 h1 h2 h3),
      shape_map_hlSpecRow (shape_coaddQuad quad h0 h1 h2 h3)⟩
  · rw [if_neg hany, poolMapRows_eq h0 hm, poolMapRows_eq h1 hm,
      poolMapRows_eq h2 hm, poolMapRows_eq h3 hm]
    exact ⟨_, rfl, shape_map_hlSpecRow h0, shape_map_hlSpecRow h1,
      shape_map_hlSpecRow h2, shape_map_hlSpecRow h3⟩

theorem recon_shape {data : List (List ℝ)} {N M : ℕ}
    (quad : Bool × Bool × Bool × Bool) (h : Shape data N M)
    (hN : Even N) (hM : Even M) (hN2 : 2 ≤ N) (hM4 : 4 ≤ M) :
    ∃ out, iabel_hansenlaw_recon data quad = some out ∧ Shape out N M := by
  have hNmod : N % 2 = 0 := Nat.even_iff.mp hN
  have hMmod : M % 2 = 0 := Nat.even_iff.mp hM
  have hdq := shape_decompose h hN hM (by omega)
  have hm2 : 2 ≤ M / 2 := by omega
  unfold iabel_hansenlaw_recon
  dsimp only []
  rw [h.1]
  obtain ⟨aq, haq, s0, s1, s2, s3⟩ :=
    hlQuads_shape quad hdq.1 hdq.2.1 hdq.2.2.1 hdq.2.2.2 hm2
  rw [haq]
  refine ⟨_, rfl, ?_⟩
  unfold reassembleQuadrants
  dsimp only []
  have hfull := shape_append (shape_hconcat s1 (shape_fliplr s0))
    (shape_flipud (shape_hconcat s2 (shape_fliplr s3)))
  rw [show N / 2 + N / 2 = N by omega, show M / 2 + M / 2 = M by omega]
    at hfull
  exact hfull

/-! ### The centering helper: rounding and centroid lemmas -/

theorem pyRound_nearest (q : ℚ) : |(pyRound q : ℚ) - q| ≤ 1 / 2 := by
  have hfl : (⌊q⌋ : ℚ) ≤ q := Int.floor_le q
  have hfu : q < ⌊q⌋ + 1 := Int.lt_floor_add_one q
  unfold pyRound
  split_ifs with h1 h2 h3 <;> rw [abs_le] <;> constructor <;> push_cast <;>
    linarith

theorem center_of_mass_swap (data : List (List ℚ)) :
    (center_of_mass data).2 = xCentroid data ∧
    (center_of_mass data).1 = yCentroid data := by
  unfold center_of_mass xCentroid yCentroid
  constructor <;> simp [List.enum_eq_zip_range]

/-! ### Claim theorems -/

/-- Claim C1: for every input row of at least two real samples,
`iabel_hansenlaw_transform` returns a length-`N` row computed exactly by
the Hansen-Law recursion as the specification words it: the nine
accumulators start at zero, step `n` updates `X[k]` to
`Nm^lam[k] * X[k] + h[k] * Gamma(Nm, lam[k]) * g[n]` with `g` the
numerical gradient of the row and `Nm = (N-n)/(N-n-1)`, `output[n]` is
the sum of the nine accumulators, `output[N-1]` repeats `output[N-2]`,
and the entire row is negated. -/
theorem hansenlaw_transform_matches_spec (row : List ℝ)
    (h2 : 2 ≤ row.length) :
    iabel_hansenlaw_transform row = some (hlSpecRow row) ∧
      (hlSpecRow row).length = row.length :=
  ⟨iabel_transform_eq_spec row h2, hlSpecRow_length row⟩

/-- Witness for the claim C1 theorem at the concrete row `[1, 0]`. -/
theorem hansenlaw_transform_matches_spec_witness :
    iabel_hansenlaw_transform [(1 : ℝ), 0] = some (hlSpecRow [(1 : ℝ), 0]) ∧
      (hlSpecRow [(1 : ℝ), 0]).length = ([(1 : ℝ), 0] : List ℝ).length :=
  hansenlaw_transform_matches_spec [(1 : ℝ), 0] (by simp)

/-- Claim C2: splitting an even-dimensioned image into the four oriented
quadrants and reassembling them with the identity applied in place of
the row transform (Q1 next to fliplr Q0 on top, flipud of Q2 next to
fliplr Q3 below) reproduces the original image exactly, pixel for
pixel. -/
theorem quadrant_roundtrip (data : List (List ℝ)) (N M : ℕ)
    (hshape : data.map List.length = List.replicate N M)
    (hN : Even N) (hM : Even M) :
    reassembleQuadrants (decomposeQuadrants data) = data :=
  reassemble_decompose data

/-- Witness for the claim C2 theorem on a concrete 2x2 image. -/
theorem quadrant_roundtrip_witness :
    reassembleQuadrants (decomposeQuadrants [[(1 : ℝ), 2], [3, 4]]) =
      [[(1 : ℝ), 2], [3, 4]] :=
  quadrant_roundtrip [[(1 : ℝ), 2], [3, 4]] 2 2 rfl (by decide) (by decide)

/-- Claim C3: `iabel_hansenlaw` takes the co-add path iff at least one
selector entry is true; that path transforms the rows of the single
combined quadrant `Q0*quad[0] + Q1*quad[1] + Q2*quad[2] + Q3*quad[3]`
(a true selector leaves its quadrant unchanged, a false one scales it to
zero) and replicates the one result as all four outputs, so the four
output quadrants are identical; with every entry false the four
quadrants are transformed independently, row by row. -/
theorem coadd_path_selection (Q0 Q1 Q2 Q3 : List (List ℝ)) (n2 : ℕ)
    (quad : Bool × Bool × Bool × Bool) :
    (anyQuad quad = true ↔
      quad.1 = true ∨ quad.2.1 = true ∨ quad.2.2.1 = true ∨
        quad.2.2.2 = true) ∧
    (anyQuad quad = true →
      hlQuads Q0 Q1 Q2 Q3 n2 quad =
        Option.map (fun A => (A, A, A, A))
          (poolMapRows (coaddQuad Q0 Q1 Q2 Q3 quad) n2) ∧
      ∀ a0 a1 a2 a3,
        hlQuads Q0 Q1 Q2 Q3 n2 quad = some (a0, a1, a2, a3) →
          a0 = a1 ∧ a0 = a2 ∧ a0 = a3) ∧
    (anyQuad quad = false →
      hlQuads Q0 Q1 Q2 Q3 n2 quad = do
        let a0 ← poolMapRows Q0 n2
        let a1 ← poolMapRows Q1 n2
        let a2 ← poolMapRows Q2 n2
        let a3 ← poolMapRows Q3 n2
        some (a0, a1, a2, a3)) ∧
    (∀ m : List (List ℝ), scaleQuad m true = m) ∧
    (∀ m : List (List ℝ),
      scaleQuad m false = m.map fun r => r.map fun _ => 0) := by
  refine ⟨?_, ?_, ?_, ?_, ?_⟩
  · simp [anyQuad, or_assoc]
  · intro hany
    have hmain : hlQuads Q0 Q1 Q2 Q3 n2 quad =
        Option.map (fun A => (A, A, A, A))
          (poolMapRows (coaddQuad Q0 Q1 Q2 Q3 quad) n2) := by
      unfold hlQuads
      rw [if_pos hany]
      generalize poolMapRows (coaddQuad Q0 Q1 Q2 Q3 quad) n2 = o
      cases o <;> rfl
    refine ⟨hmain, ?_⟩
    intro a0 a1 a2 a3 heq
    rw [hmain] at heq
    cases hp : poolMapRows (coaddQuad Q0 Q1 Q2 Q3 quad) n2 with
    | none => rw [hp] at heq; simp at heq
    | some A =>
      rw [hp] at heq
      simp only [Option.map_some', Option.some.injEq, Prod.mk.injEq] at heq
      obtain ⟨h0, h1, h2, h3⟩ := heq
      subst h0; subst h1; subst h2; subst h3
      exact ⟨rfl, rfl, rfl⟩
  · intro hfalse
    unfold hlQuads
    rw [if_neg (by simp [hfalse])]
    generalize poolMapRows Q0 n2 = o0
    generalize poolMapRows Q1 n2 = o1
    generalize poolMapRows Q2 n2 = o2
    generalize poolMapRows Q3 n2 = o3
    cases o0 <;> cases o1 <;> cases o2 <;> cases o3 <;> rfl
  · intro m
    unfold scaleQuad
    simp
  · intro m
    unfold scaleQuad
    simp

/-- Witness for the claim C3 theorem: the co-add branch at the concrete
selector `(true, true, true, true)` and empty quadrants. -/
theorem coadd_path_selection_witness :
    hlQuads [] [] [] [] 0 (true, true, true, true) =
      Option.map (fun A => (A, A, A, A))
        (poolMapRows (coaddQuad [] [] [] [] (true, true, true, true)) 0) ∧
    ∀ a0 a1 a2 a3,
      hlQuads [] [] [] [] 0 (true, true, true, true) =
          some (a0, a1, a2, a3) →
        a0 = a1 ∧ a0 = a2 ∧ a0 = a3 :=
  (coadd_path_selection [] [] [] [] 0 (true, true, true, true)).2.1 rfl

/-- Counterexample to claim C4: on the one-sample row `[0]` the
transform does not return an output row - `np.gradient` raises
`ValueError` for arrays of fewer than two samples (modelled as `none`),
so the call raises instead of returning. -/
theorem transform_raises_on_short_row :
    iabel_hansenlaw_transform [(0 : ℝ)] = none :=
  iabel_transform_none [(0 : ℝ)] (by simp)

/-- Claim C4 (amended): `iabel_hansenlaw_transform` returns an output
row exactly when the input row has at least two samples (arbitrary real
values, which merely propagate); on shorter rows `np.gradient` raises,
so the transform raises rather than returning a row. -/
theorem transform_total_iff_enough_samples (row : List ℝ) :
    (iabel_hansenlaw_transform row).isSome = true ↔ 2 ≤ row.length := by
  constructor
  · intro hs
    by_contra hlt
    rw [iabel_transform_none row (by omega)] at hs
    simp at hs
  · intro h2
    rw [iabel_transform_eq_spec row h2]
    rfl

/-- Counterexample to claim C5: the even-shaped `(2, 2)` image produces
quadrant rows of a single sample, on which `np.gradient` raises, so
`iabel_hansenlaw` raises instead of returning a `(2, 2)` image. -/
theorem recon_raises_on_two_by_two :
    iabel_hansenlaw_recon [[(1 : ℝ), 2], [3, 4]] (true, true, true, true) =
      none := by
  rfl

/-- Claim C5 (amended): for every input image of even shape `(N, M)`
with `N ≥ 2` and `M ≥ 4`, the reconstruction returned by
`iabel_hansenlaw` has the same shape `(N, M)` as the input; in
particular a `(4, 4)` input yields a `(4, 4)` output. -/
theorem recon_shape_preserved (data : List (List ℝ)) (N M : ℕ)
    (quad : Bool × Bool × Bool × Bool)
    (hshape : data.map List.length = List.replicate N M)
    (hN : Even N) (hM : Even M) (hN2 : 2 ≤ N) (hM4 : 4 ≤ M) :
    ∃ out, iabel_hansenlaw_recon data quad = some out ∧
      out.map List.length = List.replicate N M := by
  obtain ⟨out, ho, hs⟩ :=
    recon_shape quad ((mapLength_eq_iff_shape data N M).mp hshape) hN hM
      hN2 hM4
  exact ⟨out, ho, (mapLength_eq_iff_shape out N M).mpr hs⟩

/-- Witness for the claim C5 theorem at a concrete `(4, 4)` image. -/
theorem recon_shape_preserved_witness :
    ∃ out,
      iabel_hansenlaw_recon
        [[(1 : ℝ), 2, 3, 4], [5, 6, 7, 8], [9, 10, 11, 12],
          [13, 14, 15, 16]] (true, true, true, true) = some out ∧
      out.map List.length = List.replicate 4 4 :=
  recon_shape_preserved
    [[(1 : ℝ), 2, 3, 4], [5, 6, 7, 8], [9, 10, 11, 12], [13, 14, 15, 16]]
    4 4 (true, true, true, true) rfl (by decide) (by decide) (by norm_num)
    (by norm_num)

/-- Claim C6: the division branch of `Gamma` is taken exactly when
`lam < -1` and the logarithm branch otherwise; the only table entry with
`lam ≥ -1` is `lam = 0`, which takes the logarithm branch, so no
division by zero occurs; and for every `N ≥ 2` and `n < N - 1` the
ratio `Nm` exceeds 1, so the logarithm is only taken of a strictly
positive argument. -/
theorem gamma_branch_safe :
    (∀ Nm lam : ℝ, lam < -1 →
      Gamma Nm lam = (1 - Nm ^ lam) / (Real.pi * lam)) ∧
    (∀ Nm lam : ℝ, ¬lam < -1 → Gamma Nm lam = -Real.log Nm / Real.pi) ∧
    (∀ q ∈ lamTable, -1 ≤ q → q = 0) ∧
    (∀ k : Fin 9, lamCoef k < -1 → Real.pi * lamCoef k ≠ 0) ∧
    (∀ k : Fin 9, ¬lamCoef k < -1 → lamCoef k = 0) ∧
    (∀ N n : ℕ, 2 ≤ N → n < N - 1 → 1 < NmR N n) := by
  refine ⟨?_, ?_, ?_, ?_, ?_, ?_⟩
  · intro Nm lam h
    unfold Gamma
    rw [if_pos h]
  · intro Nm lam h
    unfold Gamma
    rw [if_neg h]
  · intro q hq
    fin_cases hq <;> intro hge <;> norm_num at hge ⊢
  · intro k h
    exact mul_ne_zero Real.pi_ne_zero (by linarith)
  · intro k h
    fin_cases k <;> norm_num [lamCoef, lamTable] at h ⊢
  · intro N n hN hn
    have h1 : (n : ℝ) + 2 ≤ (N : ℝ) := by
      exact_mod_cast (by omega : n + 2 ≤ N)
    have hden : (0 : ℝ) < (N : ℝ) - n - 1 := by linarith
    unfold NmR
    rw [one_lt_div hden]
    linarith

/-- Witness for the claim C6 theorem: the division branch at
`(Nm, lam) = (2, -2)` and the ratio bound at `N = 4`, `n = 0`. -/
theorem gamma_branch_safe_witness :
    Gamma 2 (-2) = (1 - (2 : ℝ) ^ (-2 : ℝ)) / (Real.pi * -2) ∧
      1 < NmR 4 0 :=
  ⟨gamma_branch_safe.1 2 (-2) (by norm_num),
    gamma_branch_safe.2.2.2.2.2 4 0 (by norm_num) (by norm_num)⟩

/-- Claim C7: the row transform depends on the input row only through
its length and its numerical gradient: adding a constant to every
sample leaves the output unchanged, two equal-length rows with equal
gradients produce equal outputs, and every constant row of at least two
samples maps to the all-zero output row. -/
theorem transform_gradient_dependence :
    (∀ (row : List ℝ) (c : ℝ),
      iabel_hansenlaw_transform (row.map fun x => x + c) =
        iabel_hansenlaw_transform row) ∧
    (∀ r1 r2 : List ℝ, r1.length = r2.length →
      npGradient r1 = npGradient r2 →
      iabel_hansenlaw_transform r1 = iabel_hansenlaw_transform r2) ∧
    (∀ (N : ℕ) (c : ℝ), 2 ≤ N →
      iabel_hansenlaw_transform (List.replicate N c) =
        some (List.replicate N 0)) := by
  refine ⟨?_, transform_congr_gradient, ?_⟩
  · intro row c
    exact transform_congr_gradient _ _ (by simp) (npGradient_map_add row c)
  · exact fun N c h2 => transform_replicate N c h2

/-- Witness for the claim C7 theorem: the constant row `[5, 5]` maps to
the all-zero row. -/
theorem transform_gradient_dependence_witness :
    iabel_hansenlaw_transform (List.replicate 2 (5 : ℝ)) =
      some (List.replicate 2 0) :=
  transform_gradient_dependence.2.2 2 5 (by norm_num)

/-- Claim C8: for every image and every fixed setting of the other
arguments, `iabel_hansenlaw` returns the same result with
`verbose = true` as with `verbose = false`: the diagnostic printing
never affects the reconstruction or the speed distribution. -/
theorem verbose_immaterial (data : List (List ℝ))
    (quad : Bool × Bool × Bool × Bool) (cs : Bool) (fc : ℕ) :
    iabel_hansenlaw data quad cs true fc =
      iabel_hansenlaw data quad cs false fc :=
  rfl

/-- Claim C9: `find_center_by_center_of_mass` returns the
intensity-weighted centroid in `(x_center, y_center)` order - the
reverse of scipy's `(row, column)` order - and with `round_output` set
each coordinate is rounded to a nearest integer pixel coordinate. -/
theorem center_of_mass_contract (data : List (List ℚ)) (v : Bool) :
    find_center_by_center_of_mass data v true =
      ((pyRound (xCentroid data) : ℚ), (pyRound (yCentroid data) : ℚ)) ∧
    find_center_by_center_of_mass data v false =
      (xCentroid data, yCentroid data) ∧
    (∀ q : ℚ, |(pyRound q : ℚ) - q| ≤ 1 / 2) := by
  obtain ⟨hx, hy⟩ := center_of_mass_swap data
  refine ⟨?_, ?_, pyRound_nearest⟩
  · simp [find_center_by_center_of_mass, hx, hy]
  · simp [find_center_by_center_of_mass, hx, hy]

end PyAbel
